import Mathlib

/-
Verification development for the sudoku solver in main.py.

The program keeps a 9x9 grid of cells; each cell owns a list of candidate
digits (list of ints 1..9) plus a propagation flag (unchecked).  The board
stores the 81 cells row-major (self.cells); rows, columns and boxes are
index views into that collection.  We embed the board as a Lean list of 81
cells, addressed by 0-based index i, with row i = i / 9, col i = i % 9.
A cell's row/column/box attributes are set once at construction from its
position and never mutated, so we model them as functions of the index.

Python-specific behaviours modelled explicitly:
  - list.remove(v) deletes the first occurrence of v and raises ValueError
    when v is absent; every call in simple_check is guarded by a membership
    test, so there it reduces to List.erase.
  - cell.cell[0] on an empty candidate list raises IndexError; this is the
    only exception that the running solver can produce, and the one that
    simple_brute_check catches.  We model the exception channel with
    Except Unit, the single error being that IndexError.
  - The while-True fixpoint loops are modelled with an explicit fuel
    argument; totalCount g + 1 units of fuel are always sufficient because
    every iteration that does not exit strictly shrinks the total number of
    candidates (proved below), so the fueled function agrees with the
    unbounded loop.
-/

deriving instance DecidableEq for Except

/-- A cell of the grid: candidate list and the propagation flag
(self.cell and self.unchecked in main.py). -/
structure Cell where
  cands : List Nat
  unchecked : Bool
deriving DecidableEq, Repr

abbrev Board := List Cell

/-- Default cell used for out-of-range reads; the program never reads out of
range (all index lists are sub-ranges of 0..80), so the default is inert:
it is unfilled and carries no candidates. -/
def defaultCell : Cell := ⟨[], false⟩

/-- Read the cell at index i (self.cells[i] / board[r,c]). -/
def cellAt (b : Board) (i : Nat) : Cell := b.getD i defaultCell

/-- Replace the cell at index i. -/
def setCellAt (b : Board) (i : Nat) (c : Cell) : Board := b.set i c

/-- Update the cell at index i in place. -/
def modifyCell (b : Board) (i : Nat) (f : Cell → Cell) : Board :=
  b.set i (f (cellAt b i))

/-- Digits 1..9, the initial candidate list list(range(1,10)). -/
def digitsList : List Nat := List.range' 1 9

/-- Row of the cell at index i (0-based; main.py uses 1-based cell.r). -/
def rowOf (i : Nat) : Nat := i / 9

/-- Column of the cell at index i. -/
def colOf (i : Nat) : Nat := i % 9

/-- Box of the cell at index i: the 3x3 tiling index that __init__ computes
from ceil(r/3) and ceil(c/3). -/
def boxOf (i : Nat) : Nat := (i / 27) * 3 + (i % 9) / 3

/-- A cell is filled when exactly one candidate remains (Cell.filled). -/
def filled (c : Cell) : Bool := c.cands.length == 1

/-- Cell.remove: self.cell.remove(val).  Python's list.remove raises
ValueError when the value is absent, and otherwise deletes it -- also when
it is the last remaining candidate, leaving the list empty with no error. -/
def Cell.remove (c : Cell) (v : Nat) : Except Unit Cell :=
  if v ∈ c.cands then .ok ⟨c.cands.erase v, c.unchecked⟩ else .error ()

/-- Board.hits: the other cells sharing a row, column or box with cell i.
The source builds list(set(rows+cols+boxes)) and removes the cell itself;
the set order is irrelevant (all removals are guarded and commute), so we
use ascending index order. -/
def hitsIdxs (i : Nat) : List Nat :=
  (List.range 81).filter (fun j => j ≠ i &&
    (rowOf j == rowOf i || colOf j == colOf i || boxOf j == boxOf i))

/-- Board.filled_cells: the filled cells, in board order, as indices. -/
def filledIdxs (b : Board) : List Nat :=
  (List.range 81).filter (fun i => filled (cellAt b i))

/-- One guarded removal inside simple_check:
if cell.cell[0] in hit.cell: hit.cell.remove(cell.cell[0]). -/
def removeFromHit (v : Nat) (b : Board) (j : Nat) : Board :=
  if v ∈ (cellAt b j).cands then
    modifyCell b j (fun c => ⟨c.cands.erase v, c.unchecked⟩)
  else b

/-- The body of simple_check, walking the snapshot of filled cells.  For a
still-unchecked cell the source reads cell.cell[0]; if the cell's candidate
list was emptied earlier in the sweep this raises IndexError (.error ()).
Otherwise its value is removed from every hit and the cell is marked
checked. -/
def sweepGo : List Nat → Board → Except Unit Board
  | [], b => .ok b
  | i :: rest, b =>
    if (cellAt b i).unchecked then
      match (cellAt b i).cands with
      | [] => .error ()
      | v :: _ =>
        let b1 := (hitsIdxs i).foldl (removeFromHit v) b
        sweepGo rest (modifyCell b1 i (fun c => ⟨c.cands, false⟩))
    else sweepGo rest b

/-- Board.simple_check: one elimination sweep over the snapshot of filled
cells. -/
def simpleCheckSweep (b : Board) : Except Unit Board :=
  sweepGo (filledIdxs b) b

/-- Indices of row k, in board order (self.rows[k]). -/
def rowIdxs (k : Nat) : List Nat := (List.range 81).filter (fun i => rowOf i == k)

/-- Indices of column k (self.cols[k]). -/
def colIdxs (k : Nat) : List Nat := (List.range 81).filter (fun i => colOf i == k)

/-- Indices of box k (self.boxes[k]). -/
def boxIdxs (k : Nat) : List Nat := (List.range 81).filter (fun i => boxOf i == k)

/-- The 27 groups in the order group_check visits them: the rows dict, then
the cols dict, then the boxes dict, keys 1..9 each. -/
def allGroups : List (List Nat) :=
  ((List.range 9).map rowIdxs) ++ ((List.range 9).map colIdxs) ++
    ((List.range 9).map boxIdxs)

/-- One (group, digit) step of group_check: x = cells of the group whose
candidates contain n; if exactly one, assign x[0].cell = [n]. -/
def groupAssignStep (b : Board) (G : List Nat) (n : Nat) : Board :=
  match G.filter (fun i => n ∈ (cellAt b i).cands) with
  | [i] => modifyCell b i (fun c => ⟨[n], c.unchecked⟩)
  | _ => b

/-- Board.group_check: one full sweep over all 27 groups and digits 1..9. -/
def groupSweep (b : Board) : Board :=
  allGroups.foldl (fun b G => digitsList.foldl (fun b n => groupAssignStep b G n) b) b

/-- The state that the loop guards compare: str(board.cells) renders each
cell's fixed coordinates and its candidate list, so two states compare
equal exactly when all candidate lists agree. -/
def candState (b : Board) : List (List Nat) := b.map (fun c => c.cands)

/-- Total number of candidates over all cells; the termination measure. -/
def totalCount (b : Board) : Nat := (b.map (fun c => c.cands.length)).sum

/-- The inner while-True loop around simple_check in basic_checks, with
fuel: run a sweep, stop when it left every candidate list unchanged. -/
def simpleLoopF : Nat → Board → Except Unit Board
  | 0, b => .ok b
  | f + 1, b =>
    match simpleCheckSweep b with
    | .error e => .error e
    | .ok b' => if candState b' = candState b then .ok b' else simpleLoopF f b'

/-- The inner while-True loop around group_check, with fuel. -/
def groupLoopF : Nat → Board → Board
  | 0, b => b
  | f + 1, b =>
    let b' := groupSweep b
    if candState b' = candState b then b' else groupLoopF f b'

/-- simple_check iterated to its local fixpoint (sufficient fuel). -/
def simpleLoop (b : Board) : Except Unit Board := simpleLoopF (totalCount b + 1) b

/-- group_check iterated to its local fixpoint (sufficient fuel). -/
def groupLoop (b : Board) : Board := groupLoopF (totalCount b + 1) b

/-- basic_checks with fuel for the outer loop: alternate the two inner
fixpoints until one full cycle changes no candidate list. -/
def basicChecksF : Nat → Board → Except Unit Board
  | 0, b => .ok b
  | f + 1, b =>
    match simpleLoop b with
    | .error e => .error e
    | .ok b1 =>
      let b2 := groupLoop b1
      if candState b2 = candState b then .ok b2 else basicChecksF f b2

/-- basic_checks (sufficient fuel). -/
def basicChecks (b : Board) : Except Unit Board := basicChecksF (totalCount b + 1) b

/-- A fresh cell: all nine candidates, unchecked (Cell.__init__). -/
def freshCell : Cell := ⟨digitsList, true⟩

/-- Board(): 81 fresh cells. -/
def newBoard : Board := List.replicate 81 freshCell

/-- Board.setup: zip the digit string (here a list of digits, 0 = blank)
with the cells in row-major order; a nonzero digit fixes the cell to the
singleton candidate list. -/
def setupOn : Board → List Nat → Board
  | b, [] => b
  | [], _ => []
  | c :: b, d :: t => (if d ≠ 0 then ⟨[d], c.unchecked⟩ else c) :: setupOn b t

/-- Board.setup_string: serialize, one digit per cell in board order, the
sole candidate for a filled cell and 0 otherwise. -/
def setupString (b : Board) : List Nat :=
  b.map (fun c => match c.cands with | [v] => v | _ => 0)

/-- Board.solved: the list of filled cells equals the full cell list. -/
def solvedB (b : Board) : Bool := b.filter (fun c => filled c) == b

/-- The scratch grid a disambiguator trial builds before assigning its
candidate: new = Board(); new.setup(board.setup_string); basic_checks(new). -/
def trialScratch (b : Board) : Except Unit Board :=
  basicChecks (setupOn newBoard (setupString b))

/-- One trial of simple_brute_check on the cell at index i: build the
scratch grid, overwrite the scratch cell with the first candidate of the
real cell (new[cell.r,cell.c] = [cell.cell[0]]), and rerun basic_checks. -/
def trial (b : Board) (i : Nat) : Except Unit Board :=
  match trialScratch b with
  | .error e => .error e
  | .ok s =>
    basicChecks (modifyCell s i (fun c => ⟨[(cellAt b i).cands.headD 0], c.unchecked⟩))

/-- The cells with exactly two candidates (almost), as indices, snapshot
taken at the start of the pass. -/
def almostIdxs (b : Board) : List Nat :=
  (List.range 81).filter (fun i => (cellAt b i).cands.length == 2)

/-- One iteration of simple_brute_check's loop: an IndexError from the
trial is caught and the other candidate is assigned on the real grid
(cell.cell = [cell.cell[1]]); otherwise nothing changes. -/
def bruteStep (b : Board) (i : Nat) : Board :=
  match trial b i with
  | .ok _ => b
  | .error _ => modifyCell b i (fun c => ⟨[c.cands.getD 1 0], c.unchecked⟩)

/-- simple_brute_check: one disambiguator pass over the snapshot of
two-candidate cells. -/
def simpleBruteCheck (b : Board) : Board := (almostIdxs b).foldl bruteStep b

/-- The state of the real grid when the disambiguator pass reaches the
trial for cell i: the pass has already folded over the earlier
two-candidate cells. -/
def bruteBefore (b : Board) (i : Nat) : Board :=
  ((almostIdxs b).takeWhile (fun j => j != i)).foldl bruteStep b

/-- One cycle of solve's loop: basic_checks, then either report success or
run one disambiguator pass. -/
def solveCycle (b : Board) : Except Unit (Board × Bool) :=
  match basicChecks b with
  | .error e => .error e
  | .ok b1 => if solvedB b1 then .ok (b1, true) else .ok (simpleBruteCheck b1, false)

/-- solve with fuel: the loop stops with success right after the fixpoint,
or reports stuck when a full cycle changed no candidate list (the guard
compares str(board.cells)).  The Nat counts the cycles run. -/
def solveF : Nat → Board → Except Unit (Board × Bool × Nat)
  | 0, b => .ok (b, false, 0)
  | f + 1, b =>
    match solveCycle b with
    | .error e => .error e
    | .ok (b1, true) => .ok (b1, true, 1)
    | .ok (b2, false) =>
      if candState b2 = candState b then .ok (b2, false, 1)
      else
        match solveF f b2 with
        | .error e => .error e
        | .ok (bf, s, k) => .ok (bf, s, k + 1)

/-- solve (sufficient fuel). -/
def solve (b : Board) : Except Unit (Board × Bool × Nat) :=
  solveF (totalCount b + 1) b

/-- The shrink order on boards: same shape, each cell's candidate list a
sublist of what it was.  Every mutation the solver performs respects it. -/
def CandsLE (b' b : Board) : Prop :=
  b'.length = b.length ∧ ∀ i, ((cellAt b' i).cands).Sublist ((cellAt b i).cands)


/-
Concrete boards used to instantiate the theorems below.
-/

/-- Scenario B of the specification: two cells of row 1 both restricted to
exactly the candidate set with 5. -/
def scenB : Board := (newBoard.set 0 ⟨[5], true⟩).set 1 ⟨[5], true⟩

/-- A board whose only deviation from fresh is one solved, unpropagated
cell holding 5. -/
def b5 : Board := newBoard.set 0 ⟨[5], true⟩

/-- The board b5 after one full solve cycle: the 5 has been pushed to the
20 peers of cell 0 and cell 0 is marked checked. -/
def b5p : Board := (List.range 81).map (fun i =>
  if i = 0 then ⟨[5], false⟩
  else if decide (i ∈ hitsIdxs 0) then ⟨digitsList.erase 5, true⟩ else freshCell)

/-- A board with one two-candidate cell whose disambiguator trial runs into
a contradiction: the serialized grid holds two 9s in row 1, so rebuilding
and propagating the scratch copy raises IndexError. -/
def orig2 : Board := ((newBoard.set 0 ⟨[1,2], true⟩).set 3 ⟨[9], true⟩).set 4 ⟨[9], true⟩

/-- A board whose cell r1c2 is restricted to two candidates; serialization
forgets that restriction. -/
def orig3 : Board := newBoard.set 1 ⟨[1,2], true⟩

/-- A board with a single two-candidate cell whose trial finds no
contradiction. -/
def orig6 : Board := newBoard.set 0 ⟨[1,2], true⟩

/-- A fresh board whose first cell has an empty candidate set. -/
def g10 : Board := newBoard.set 0 ⟨[], true⟩


/-
Infrastructure: pointwise reasoning about boards.
-/

lemma cellAt_nil (i : Nat) : cellAt [] i = defaultCell := by
  cases i <;> rfl

lemma cellAt_cons_zero (c : Cell) (t : Board) : cellAt (c :: t) 0 = c := rfl

lemma cellAt_cons_succ (c : Cell) (t : Board) (i : Nat) :
    cellAt (c :: t) (i + 1) = cellAt t i := rfl

lemma cellAt_of_length_le (b : Board) (i : Nat) (h : b.length ≤ i) :
    cellAt b i = defaultCell := by
  unfold cellAt
  rw [List.getD_eq_getElem?_getD, List.getElem?_eq_none h]
  rfl

lemma cellAt_lt_of_ne_default (b : Board) (i : Nat) (h : cellAt b i ≠ defaultCell) :
    i < b.length := by
  by_contra hlt
  exact h (cellAt_of_length_le b i (Nat.le_of_not_lt hlt))

lemma length_setCellAt (b : Board) (i : Nat) (c : Cell) :
    (setCellAt b i c).length = b.length := List.length_set b i c

lemma length_modifyCell (b : Board) (i : Nat) (f : Cell → Cell) :
    (modifyCell b i f).length = b.length := List.length_set _ i _

lemma cellAt_set_ne (b : Board) (i j : Nat) (c : Cell) (h : j ≠ i) :
    cellAt (b.set i c) j = cellAt b j := by
  unfold cellAt
  rw [List.getD_eq_getElem?_getD, List.getD_eq_getElem?_getD,
    List.getElem?_set_ne (fun he => h he.symm)]

lemma cellAt_set_self (b : Board) (i : Nat) (c : Cell) (h : i < b.length) :
    cellAt (b.set i c) i = c := by
  unfold cellAt
  rw [List.getD_eq_getElem?_getD, List.getElem?_set_eq_of_lt c h]
  rfl

lemma set_of_length_le (b : Board) (i : Nat) (c : Cell) (h : b.length ≤ i) :
    b.set i c = b := List.set_eq_of_length_le h

lemma cellAt_modify (b : Board) (i j : Nat) (f : Cell → Cell) :
    cellAt (modifyCell b i f) j =
      if j = i ∧ i < b.length then f (cellAt b i) else cellAt b j := by
  unfold modifyCell
  by_cases hj : j = i
  · subst hj
    by_cases hl : j < b.length
    · rw [cellAt_set_self _ _ _ hl, if_pos ⟨rfl, hl⟩]
    · rw [set_of_length_le _ _ _ (Nat.le_of_not_lt hl), if_neg (fun h => hl h.2)]
  · rw [cellAt_set_ne _ _ _ _ hj, if_neg (fun h => hj h.1)]

lemma cellAt_modify_ne (b : Board) (i j : Nat) (f : Cell → Cell) (h : j ≠ i) :
    cellAt (modifyCell b i f) j = cellAt b j := by
  rw [cellAt_modify, if_neg (fun hc => h hc.1)]

/-- Pointwise extensionality for boards. -/
lemma board_ext (b' b : Board) (hlen : b'.length = b.length)
    (h : ∀ i, cellAt b' i = cellAt b i) : b' = b := by
  apply List.ext_getElem?
  intro i
  by_cases hi : i < b.length
  · have h1 : b'[i]? = some (cellAt b' i) := by
      unfold cellAt
      rw [List.getD_eq_getElem?_getD, List.getElem?_eq_getElem (hlen ▸ hi)]
      rfl
    have h2 : b[i]? = some (cellAt b i) := by
      unfold cellAt
      rw [List.getD_eq_getElem?_getD, List.getElem?_eq_getElem hi]
      rfl
    rw [h1, h2, h i]
  · rw [List.getElem?_eq_none (hlen ▸ Nat.le_of_not_lt hi),
      List.getElem?_eq_none (Nat.le_of_not_lt hi)]

lemma CandsLE.refl (b : Board) : CandsLE b b :=
  ⟨rfl, fun _ => List.Sublist.refl _⟩

lemma CandsLE.trans {b1 b2 b3 : Board} (h12 : CandsLE b1 b2) (h23 : CandsLE b2 b3) :
    CandsLE b1 b3 :=
  ⟨h12.1.trans h23.1, fun i => (h12.2 i).trans (h23.2 i)⟩

/-
Monotonicity: every mutation shrinks candidate lists pointwise.
-/

lemma removeFromHit_candsLE (v : Nat) (b : Board) (j : Nat) :
    CandsLE (removeFromHit v b j) b := by
  unfold removeFromHit
  by_cases hv : v ∈ (cellAt b j).cands
  · rw [if_pos hv]
    refine ⟨length_modifyCell b j _, fun i => ?_⟩
    rw [cellAt_modify]
    by_cases hc : i = j ∧ j < b.length
    · rw [if_pos hc, hc.1]
      exact List.erase_sublist v (cellAt b j).cands
    · rw [if_neg hc]
  · rw [if_neg hv]
    exact CandsLE.refl b

lemma foldl_removeFromHit_candsLE (v : Nat) (l : List Nat) (b : Board) :
    CandsLE (l.foldl (removeFromHit v) b) b := by
  induction l generalizing b with
  | nil => exact CandsLE.refl b
  | cons j rest ih =>
    exact (ih (removeFromHit v b j)).trans (removeFromHit_candsLE v b j)

lemma modify_flag_candsLE (b : Board) (i : Nat) :
    CandsLE (modifyCell b i (fun c => ⟨c.cands, false⟩)) b := by
  refine ⟨length_modifyCell b i _, fun j => ?_⟩
  rw [cellAt_modify]
  by_cases hc : j = i ∧ i < b.length
  · rw [if_pos hc, hc.1]
  · rw [if_neg hc]

lemma sweepGo_candsLE : ∀ (l : List Nat) (b b' : Board),
    sweepGo l b = .ok b' → CandsLE b' b := by
  intro l
  induction l with
  | nil =>
    intro b b' h
    cases h
    exact CandsLE.refl b
  | cons i rest ih =>
    intro b b' h
    simp only [sweepGo] at h
    split at h
    · split at h
      · exact Except.noConfusion h
      · next v vs heq =>
        exact (ih _ _ h).trans
          ((modify_flag_candsLE _ i).trans (foldl_removeFromHit_candsLE v (hitsIdxs i) b))
    · exact ih b b' h

lemma simpleCheckSweep_candsLE (b b' : Board) (h : simpleCheckSweep b = .ok b') :
    CandsLE b' b := sweepGo_candsLE (filledIdxs b) b b' h

lemma groupAssignStep_candsLE (b : Board) (G : List Nat) (n : Nat) :
    CandsLE (groupAssignStep b G n) b := by
  unfold groupAssignStep
  cases hx : G.filter (fun i => n ∈ (cellAt b i).cands) with
  | nil => exact CandsLE.refl b
  | cons j tail =>
    cases tail with
    | cons _ _ => exact CandsLE.refl b
    | nil =>
      have hj : j ∈ G.filter (fun i => n ∈ (cellAt b i).cands) := by
        rw [hx]; exact List.mem_singleton_self j
      have hmem : n ∈ (cellAt b j).cands := by
        have := (List.mem_filter.mp hj).2
        exact of_decide_eq_true this
      refine ⟨length_modifyCell b j _, fun i => ?_⟩
      rw [cellAt_modify]
      by_cases hc : i = j ∧ j < b.length
      · rw [if_pos hc, hc.1]
        exact List.singleton_sublist.mpr hmem
      · rw [if_neg hc]

lemma digitFold_candsLE (G : List Nat) (ns : List Nat) (b : Board) :
    CandsLE (ns.foldl (fun b n => groupAssignStep b G n) b) b := by
  induction ns generalizing b with
  | nil => exact CandsLE.refl b
  | cons n rest ih =>
    exact (ih (groupAssignStep b G n)).trans (groupAssignStep_candsLE b G n)

lemma groupSweep_candsLE (b : Board) : CandsLE (groupSweep b) b := by
  unfold groupSweep
  generalize allGroups = gs
  induction gs generalizing b with
  | nil => exact CandsLE.refl b
  | cons G rest ih =>
    exact (ih _).trans (digitFold_candsLE G digitsList b)

lemma simpleLoopF_candsLE : ∀ (f : Nat) (b b' : Board),
    simpleLoopF f b = .ok b' → CandsLE b' b := by
  intro f
  induction f with
  | zero =>
    intro b b' h
    cases h
    exact CandsLE.refl b
  | succ f ih =>
    intro b b' h
    simp only [simpleLoopF] at h
    split at h
    · exact Except.noConfusion h
    · next b1 hs =>
      split at h
      · cases h
        exact simpleCheckSweep_candsLE b b' hs
      · exact (ih _ _ h).trans (simpleCheckSweep_candsLE b b1 hs)

lemma groupLoopF_candsLE : ∀ (f : Nat) (b : Board), CandsLE (groupLoopF f b) b := by
  intro f
  induction f with
  | zero => intro b; exact CandsLE.refl b
  | succ f ih =>
    intro b
    simp only [groupLoopF]
    split
    · exact groupSweep_candsLE b
    · exact (ih _).trans (groupSweep_candsLE b)

lemma simpleLoop_candsLE (b b' : Board) (h : simpleLoop b = .ok b') : CandsLE b' b :=
  simpleLoopF_candsLE _ b b' h

lemma groupLoop_candsLE (b : Board) : CandsLE (groupLoop b) b := groupLoopF_candsLE _ b

lemma basicChecksF_candsLE : ∀ (f : Nat) (b b' : Board),
    basicChecksF f b = .ok b' → CandsLE b' b := by
  intro f
  induction f with
  | zero =>
    intro b b' h
    cases h
    exact CandsLE.refl b
  | succ f ih =>
    intro b b' h
    simp only [basicChecksF] at h
    split at h
    · exact Except.noConfusion h
    · next b1 hs =>
      split at h
      · obtain rfl : groupLoop b1 = b' := Except.ok.inj h
        exact (groupLoop_candsLE b1).trans (simpleLoop_candsLE b b1 hs)
      · exact (ih _ _ h).trans ((groupLoop_candsLE b1).trans (simpleLoop_candsLE b b1 hs))

lemma basicChecks_candsLE (b b' : Board) (h : basicChecks b = .ok b') : CandsLE b' b :=
  basicChecksF_candsLE _ b b' h

/-
The comparison state and the termination measure.
-/

lemma candState_nil : candState [] = [] := rfl

lemma candState_cons (c : Cell) (t : Board) :
    candState (c :: t) = c.cands :: candState t := rfl

lemma totalCount_nil : totalCount [] = 0 := rfl

lemma totalCount_cons (c : Cell) (t : Board) :
    totalCount (c :: t) = c.cands.length + totalCount t := rfl

lemma CandsLE.tail {c' c : Cell} {t' t : Board} (h : CandsLE (c' :: t') (c :: t)) :
    CandsLE t' t :=
  ⟨Nat.succ_injective h.1, fun i => h.2 (i + 1)⟩

lemma candState_eq_iff : ∀ (b' b : Board),
    candState b' = candState b ↔
      (b'.length = b.length ∧ ∀ i, (cellAt b' i).cands = (cellAt b i).cands) := by
  intro b'
  induction b' with
  | nil =>
    intro b
    cases b with
    | nil => simp [candState]
    | cons c t =>
      simp only [candState_nil, candState_cons, List.length_nil, List.length_cons]
      constructor
      · intro h; exact absurd h (by simp)
      · intro h; omega
  | cons c' t' ih =>
    intro b
    cases b with
    | nil =>
      simp only [candState_nil, candState_cons, List.length_nil, List.length_cons]
      constructor
      · intro h; exact absurd h (by simp)
      · intro h; omega
    | cons c t =>
      rw [candState_cons, candState_cons, List.cons_eq_cons, ih t]
      constructor
      · rintro ⟨h0, hlen, hall⟩
        refine ⟨by simp [hlen], fun i => ?_⟩
        cases i with
        | zero => simpa [cellAt_cons_zero] using h0
        | succ j => simpa [cellAt_cons_succ] using hall j
      · rintro ⟨hlen, hall⟩
        refine ⟨by simpa [cellAt_cons_zero] using hall 0, by simpa using hlen, fun i => ?_⟩
        simpa [cellAt_cons_succ] using hall (i + 1)

lemma totalCount_le_of_candsLE : ∀ (b' b : Board), CandsLE b' b →
    totalCount b' ≤ totalCount b := by
  intro b'
  induction b' with
  | nil => intro b _; simp [totalCount_nil]
  | cons c' t' ih =>
    intro b h
    cases b with
    | nil => exact absurd h.1 (by simp)
    | cons c t =>
      rw [totalCount_cons, totalCount_cons]
      have hhead : c'.cands.length ≤ c.cands.length := by
        have := h.2 0
        simpa [cellAt_cons_zero] using this.length_le
      exact Nat.add_le_add hhead (ih t h.tail)

lemma sublist_length_lt_of_ne {l' l : List Nat} (h : l'.Sublist l) (hne : l' ≠ l) :
    l'.length < l.length := by
  rcases Nat.lt_or_ge l'.length l.length with hlt | hge
  · exact hlt
  · exact absurd (h.eq_of_length (Nat.le_antisymm h.length_le hge)) hne

lemma totalCount_lt_of_ne : ∀ (b' b : Board), CandsLE b' b →
    candState b' ≠ candState b → totalCount b' < totalCount b := by
  intro b'
  induction b' with
  | nil =>
    intro b h hne
    cases b with
    | nil => exact absurd rfl hne
    | cons c t => exact absurd h.1 (by simp)
  | cons c' t' ih =>
    intro b h hne
    cases b with
    | nil => exact absurd h.1 (by simp)
    | cons c t =>
      rw [totalCount_cons, totalCount_cons]
      have hhead : c'.cands.Sublist c.cands := by
        have := h.2 0
        simpa [cellAt_cons_zero] using this
      by_cases h0 : c'.cands = c.cands
      · have htne : candState t' ≠ candState t := by
          intro hteq
          exact hne (by rw [candState_cons, candState_cons, h0, hteq])
        exact Nat.add_lt_add_of_le_of_lt (by rw [h0]) (ih t h.tail htne)
      · exact Nat.add_lt_add_of_lt_of_le (sublist_length_lt_of_ne hhead h0)
          (totalCount_le_of_candsLE t' t h.tail)

/-- Produced candState unchanged means totalCount unchanged; contrapositive
of the strict decrease. -/
lemma candState_eq_of_count_eq (b' b : Board) (h : CandsLE b' b)
    (hc : totalCount b' = totalCount b) : candState b' = candState b := by
  by_contra hne
  exact absurd hc (Nat.ne_of_lt (totalCount_lt_of_ne b' b h hne))

/-
Step characterizations of the fueled loops.
-/

lemma simpleLoopF_succ_ok (f : Nat) (b b1 : Board) (hs : simpleCheckSweep b = .ok b1) :
    simpleLoopF (f + 1) b =
      if candState b1 = candState b then .ok b1 else simpleLoopF f b1 := by
  simp only [simpleLoopF, hs]

lemma simpleLoopF_succ_err (f : Nat) (b : Board) (e : Unit)
    (hs : simpleCheckSweep b = .error e) : simpleLoopF (f + 1) b = .error e := by
  simp only [simpleLoopF, hs]

lemma groupLoopF_succ (f : Nat) (b : Board) :
    groupLoopF (f + 1) b =
      if candState (groupSweep b) = candState b then groupSweep b
      else groupLoopF f (groupSweep b) := by
  simp only [groupLoopF]

lemma basicChecksF_succ_ok (f : Nat) (b b1 : Board) (hs : simpleLoop b = .ok b1) :
    basicChecksF (f + 1) b =
      if candState (groupLoop b1) = candState b then .ok (groupLoop b1)
      else basicChecksF f (groupLoop b1) := by
  simp only [basicChecksF, hs]

lemma basicChecksF_succ_err (f : Nat) (b : Board) (e : Unit)
    (hs : simpleLoop b = .error e) : basicChecksF (f + 1) b = .error e := by
  simp only [basicChecksF, hs]

lemma solveF_succ_err (f : Nat) (b : Board) (e : Unit)
    (hs : solveCycle b = .error e) : solveF (f + 1) b = .error e := by
  simp only [solveF, hs]

lemma solveF_succ_solved (f : Nat) (b b1 : Board) (hs : solveCycle b = .ok (b1, true)) :
    solveF (f + 1) b = .ok (b1, true, 1) := by
  simp only [solveF, hs]

lemma solveF_succ_unsolved (f : Nat) (b b2 : Board) (hs : solveCycle b = .ok (b2, false)) :
    solveF (f + 1) b =
      if candState b2 = candState b then .ok (b2, false, 1)
      else
        match solveF f b2 with
        | .error e => .error e
        | .ok (bf, s, k) => .ok (bf, s, k + 1) := by
  simp only [solveF, hs]

/-
Fuel sufficiency: totalCount b + 1 units of fuel make each fueled loop
agree with the unbounded while-True loop, because every iteration that
does not exit strictly decreases totalCount.
-/

lemma simpleLoopF_stable : ∀ (n : Nat) (b : Board) (f₁ f₂ : Nat),
    totalCount b ≤ n → totalCount b < f₁ → totalCount b < f₂ →
    simpleLoopF f₁ b = simpleLoopF f₂ b := by
  intro n
  induction n with
  | zero =>
    intro b f₁ f₂ hn h1 h2
    obtain ⟨k₁, rfl⟩ : ∃ k, f₁ = k + 1 := ⟨f₁ - 1, by omega⟩
    obtain ⟨k₂, rfl⟩ : ∃ k, f₂ = k + 1 := ⟨f₂ - 1, by omega⟩
    cases hs : simpleCheckSweep b with
    | error e => rw [simpleLoopF_succ_err k₁ b e hs, simpleLoopF_succ_err k₂ b e hs]
    | ok b1 =>
      have hle : totalCount b1 ≤ totalCount b :=
        totalCount_le_of_candsLE b1 b (simpleCheckSweep_candsLE b b1 hs)
      have heq : candState b1 = candState b :=
        candState_eq_of_count_eq b1 b (simpleCheckSweep_candsLE b b1 hs) (by omega)
      rw [simpleLoopF_succ_ok k₁ b b1 hs, simpleLoopF_succ_ok k₂ b b1 hs,
        if_pos heq, if_pos heq]
  | succ n ih =>
    intro b f₁ f₂ hn h1 h2
    obtain ⟨k₁, rfl⟩ : ∃ k, f₁ = k + 1 := ⟨f₁ - 1, by omega⟩
    obtain ⟨k₂, rfl⟩ : ∃ k, f₂ = k + 1 := ⟨f₂ - 1, by omega⟩
    cases hs : simpleCheckSweep b with
    | error e => rw [simpleLoopF_succ_err k₁ b e hs, simpleLoopF_succ_err k₂ b e hs]
    | ok b1 =>
      rw [simpleLoopF_succ_ok k₁ b b1 hs, simpleLoopF_succ_ok k₂ b b1 hs]
      by_cases heq : candState b1 = candState b
      · rw [if_pos heq, if_pos heq]
      · rw [if_neg heq, if_neg heq]
        have hlt : totalCount b1 < totalCount b :=
          totalCount_lt_of_ne b1 b (simpleCheckSweep_candsLE b b1 hs) heq
        exact ih b1 k₁ k₂ (by omega) (by omega) (by omega)

lemma groupLoopF_stable : ∀ (n : Nat) (b : Board) (f₁ f₂ : Nat),
    totalCount b ≤ n → totalCount b < f₁ → totalCount b < f₂ →
    groupLoopF f₁ b = groupLoopF f₂ b := by
  intro n
  induction n with
  | zero =>
    intro b f₁ f₂ hn h1 h2
    obtain ⟨k₁, rfl⟩ : ∃ k, f₁ = k + 1 := ⟨f₁ - 1, by omega⟩
    obtain ⟨k₂, rfl⟩ : ∃ k, f₂ = k + 1 := ⟨f₂ - 1, by omega⟩
    have hle : totalCount (groupSweep b) ≤ totalCount b :=
      totalCount_le_of_candsLE _ b (groupSweep_candsLE b)
    have heq : candState (groupSweep b) = candState b :=
      candState_eq_of_count_eq _ b (groupSweep_candsLE b) (by omega)
    rw [groupLoopF_succ, groupLoopF_succ, if_pos heq, if_pos heq]
  | succ n ih =>
    intro b f₁ f₂ hn h1 h2
    obtain ⟨k₁, rfl⟩ : ∃ k, f₁ = k + 1 := ⟨f₁ - 1, by omega⟩
    obtain ⟨k₂, rfl⟩ : ∃ k, f₂ = k + 1 := ⟨f₂ - 1, by omega⟩
    rw [groupLoopF_succ, groupLoopF_succ]
    by_cases heq : candState (groupSweep b) = candState b
    · rw [if_pos heq, if_pos heq]
    · rw [if_neg heq, if_neg heq]
      have hlt : totalCount (groupSweep b) < totalCount b :=
        totalCount_lt_of_ne _ b (groupSweep_candsLE b) heq
      exact ih _ k₁ k₂ (by omega) (by omega) (by omega)

lemma basicChecksF_stable : ∀ (n : Nat) (b : Board) (f₁ f₂ : Nat),
    totalCount b ≤ n → totalCount b < f₁ → totalCount b < f₂ →
    basicChecksF f₁ b = basicChecksF f₂ b := by
  intro n
  induction n with
  | zero =>
    intro b f₁ f₂ hn h1 h2
    obtain ⟨k₁, rfl⟩ : ∃ k, f₁ = k + 1 := ⟨f₁ - 1, by omega⟩
    obtain ⟨k₂, rfl⟩ : ∃ k, f₂ = k + 1 := ⟨f₂ - 1, by omega⟩
    cases hs : simpleLoop b with
    | error e => rw [basicChecksF_succ_err k₁ b e hs, basicChecksF_succ_err k₂ b e hs]
    | ok b1 =>
      have hle2 : CandsLE (groupLoop b1) b :=
        (groupLoop_candsLE b1).trans (simpleLoop_candsLE b b1 hs)
      have hle : totalCount (groupLoop b1) ≤ totalCount b :=
        totalCount_le_of_candsLE _ b hle2
      have heq : candState (groupLoop b1) = candState b :=
        candState_eq_of_count_eq _ b hle2 (by omega)
      rw [basicChecksF_succ_ok k₁ b b1 hs, basicChecksF_succ_ok k₂ b b1 hs,
        if_pos heq, if_pos heq]
  | succ n ih =>
    intro b f₁ f₂ hn h1 h2
    obtain ⟨k₁, rfl⟩ : ∃ k, f₁ = k + 1 := ⟨f₁ - 1, by omega⟩
    obtain ⟨k₂, rfl⟩ : ∃ k, f₂ = k + 1 := ⟨f₂ - 1, by omega⟩
    cases hs : simpleLoop b with
    | error e => rw [basicChecksF_succ_err k₁ b e hs, basicChecksF_succ_err k₂ b e hs]
    | ok b1 =>
      rw [basicChecksF_succ_ok k₁ b b1 hs, basicChecksF_succ_ok k₂ b b1 hs]
      by_cases heq : candState (groupLoop b1) = candState b
      · rw [if_pos heq, if_pos heq]
      · rw [if_neg heq, if_neg heq]
        have hle2 : CandsLE (groupLoop b1) b :=
          (groupLoop_candsLE b1).trans (simpleLoop_candsLE b b1 hs)
        have hlt : totalCount (groupLoop b1) < totalCount b :=
          totalCount_lt_of_ne _ b hle2 heq
        exact ih _ k₁ k₂ (by omega) (by omega) (by omega)

/-- Any fuel beyond totalCount computes the same value as the canonical
fuel used by basicChecks. -/
lemma basicChecks_eq_F (b : Board) (f : Nat) (hf : totalCount b < f) :
    basicChecks b = basicChecksF f b :=
  basicChecksF_stable (totalCount b) b (totalCount b + 1) f
    (Nat.le_refl _) (Nat.lt_succ_self _) hf

/-
Propagation flags: how the sweeps treat cell.unchecked.
-/

lemma removeFromHit_flag (v : Nat) (b : Board) (j i : Nat) :
    (cellAt (removeFromHit v b j) i).unchecked = (cellAt b i).unchecked := by
  unfold removeFromHit
  by_cases hv : v ∈ (cellAt b j).cands
  · rw [if_pos hv, cellAt_modify]
    by_cases hc : i = j ∧ j < b.length
    · rw [if_pos hc, hc.1]
    · rw [if_neg hc]
  · rw [if_neg hv]

lemma foldl_removeFromHit_flag (v : Nat) (l : List Nat) (b : Board) (i : Nat) :
    (cellAt (l.foldl (removeFromHit v) b) i).unchecked = (cellAt b i).unchecked := by
  induction l generalizing b with
  | nil => rfl
  | cons j rest ih => rw [List.foldl_cons, ih, removeFromHit_flag]

lemma sweepGo_flag_mono : ∀ (l : List Nat) (b b' : Board), sweepGo l b = .ok b' →
    ∀ i, (cellAt b i).unchecked = false → (cellAt b' i).unchecked = false := by
  intro l
  induction l with
  | nil => intro b b' h i hf; cases h; exact hf
  | cons j rest ih =>
    intro b b' h i hf
    simp only [sweepGo] at h
    split at h
    · split at h
      · exact Except.noConfusion h
      · next v vs heq =>
        refine ih _ _ h i ?_
        rw [cellAt_modify]
        by_cases hc : i = j ∧ j < (List.foldl (removeFromHit v) b (hitsIdxs j)).length
        · rw [if_pos hc]
        · rw [if_neg hc, foldl_removeFromHit_flag]
          exact hf
    · exact ih _ _ h i hf

lemma sweepGo_processed : ∀ (l : List Nat) (b b' : Board), sweepGo l b = .ok b' →
    ∀ i ∈ l, (cellAt b' i).unchecked = false := by
  intro l
  induction l with
  | nil => intro b b' h i hi; cases hi
  | cons j rest ih =>
    intro b b' h i hi
    simp only [sweepGo] at h
    split at h
    · next hu =>
      split at h
      · exact Except.noConfusion h
      · next v vs heq =>
        rcases List.mem_cons.mp hi with rfl | hr
        · -- the processed cell itself: its flag is set to false, then stays false
          refine sweepGo_flag_mono rest _ b' h i ?_
          have hlen : i < b.length := by
            refine cellAt_lt_of_ne_default b i (fun hd => ?_)
            rw [hd] at hu
            exact Bool.noConfusion hu
          have hlen1 : i < (List.foldl (removeFromHit v) b (hitsIdxs i)).length := by
            have := (foldl_removeFromHit_candsLE v (hitsIdxs i) b).1
            omega
          rw [cellAt_modify, if_pos ⟨rfl, hlen1⟩]
        · exact ih _ _ h i hr
    · next hu =>
      rcases List.mem_cons.mp hi with rfl | hr
      · exact sweepGo_flag_mono rest b b' h i (Bool.not_eq_true _ ▸ hu)
      · exact ih _ _ h i hr

lemma sweepGo_skip : ∀ (l : List Nat) (b : Board),
    (∀ i ∈ l, (cellAt b i).unchecked = false) → sweepGo l b = .ok b := by
  intro l
  induction l with
  | nil => intro b _; rfl
  | cons j rest ih =>
    intro b h
    simp only [sweepGo]
    rw [if_neg (by rw [h j (List.mem_cons_self j rest)]; exact Bool.false_ne_true)]
    exact ih b (fun i hi => h i (List.mem_cons_of_mem j hi))

lemma groupAssignStep_flag (b : Board) (G : List Nat) (n : Nat) (i : Nat) :
    (cellAt (groupAssignStep b G n) i).unchecked = (cellAt b i).unchecked := by
  unfold groupAssignStep
  split
  · next j _ =>
    rw [cellAt_modify]
    by_cases hc : i = j ∧ j < b.length
    · rw [if_pos hc, hc.1]
    · rw [if_neg hc]
  · rfl

lemma digitFold_flag (G : List Nat) (ns : List Nat) (b : Board) (i : Nat) :
    (cellAt (ns.foldl (fun b n => groupAssignStep b G n) b) i).unchecked =
      (cellAt b i).unchecked := by
  induction ns generalizing b with
  | nil => rfl
  | cons n rest ih => rw [List.foldl_cons, ih, groupAssignStep_flag]

lemma groupSweep_flag (b : Board) (i : Nat) :
    (cellAt (groupSweep b) i).unchecked = (cellAt b i).unchecked := by
  unfold groupSweep
  generalize allGroups = gs
  induction gs generalizing b with
  | nil => rfl
  | cons G rest ih => rw [List.foldl_cons, ih, digitFold_flag]

lemma groupLoopF_flag : ∀ (f : Nat) (b : Board) (i : Nat),
    (cellAt (groupLoopF f b) i).unchecked = (cellAt b i).unchecked := by
  intro f
  induction f with
  | zero => intro b i; rfl
  | succ f ih =>
    intro b i
    rw [groupLoopF_succ]
    by_cases heq : candState (groupSweep b) = candState b
    · rw [if_pos heq, groupSweep_flag]
    · rw [if_neg heq, ih, groupSweep_flag]

/-- Two boards with equal candidate state and pointwise equal flags are
equal. -/
lemma board_eq_of_candState_flag (b' b : Board) (hc : candState b' = candState b)
    (hf : ∀ i, (cellAt b' i).unchecked = (cellAt b i).unchecked) : b' = b := by
  obtain ⟨hlen, hcands⟩ := (candState_eq_iff b' b).mp hc
  refine board_ext b' b hlen (fun i => ?_)
  have h1 := hcands i
  have h2 := hf i
  cases hb' : cellAt b' i with
  | mk cs u =>
    cases hb : cellAt b i with
    | mk cs2 u2 =>
      rw [hb', hb] at h1 h2
      simp only at h1 h2
      rw [h1, h2]

/-
Fixpoint facts: what the states returned by the loops satisfy.
-/

lemma mem_filledIdxs (b : Board) (i : Nat) :
    i ∈ filledIdxs b ↔ i < 81 ∧ filled (cellAt b i) = true := by
  unfold filledIdxs
  rw [List.mem_filter, List.mem_range]

/-- After a successful simpleLoopF run, a further sweep leaves the board
untouched: every filled cell has been marked checked. -/
lemma simpleLoopF_fix : ∀ (f : Nat) (b b1 : Board), totalCount b < f →
    simpleLoopF f b = .ok b1 → simpleCheckSweep b1 = .ok b1 := by
  intro f
  induction f with
  | zero => intro b b1 hf h; exact absurd hf (Nat.not_lt_zero _)
  | succ f ih =>
    intro b b1 hf h
    cases hs : simpleCheckSweep b with
    | error e =>
      rw [simpleLoopF_succ_err f b e hs] at h
      exact Except.noConfusion h
    | ok b' =>
      rw [simpleLoopF_succ_ok f b b' hs] at h
      by_cases heq : candState b' = candState b
      · rw [if_pos heq] at h
        obtain rfl : b' = b1 := Except.ok.inj h
        unfold simpleCheckSweep
        apply sweepGo_skip
        intro i hi
        obtain ⟨hi81, hifil⟩ := (mem_filledIdxs b' i).mp hi
        obtain ⟨hlen, hcands⟩ := (candState_eq_iff b' b).mp heq
        have hfb : filled (cellAt b i) = true := by
          unfold filled at hifil ⊢
          rw [← hcands i]
          exact hifil
        exact sweepGo_processed (filledIdxs b) b b' hs i
          ((mem_filledIdxs b i).mpr ⟨hi81, hfb⟩)
      · rw [if_neg heq] at h
        have hc := simpleCheckSweep_candsLE b b' hs
        have hlt : totalCount b' < totalCount b := totalCount_lt_of_ne b' b hc heq
        exact ih b' b1 (by omega) h

/-- A groupLoopF result is a fixpoint of a single group sweep. -/
lemma groupLoopF_fix : ∀ (f : Nat) (b : Board), totalCount b < f →
    groupSweep (groupLoopF f b) = groupLoopF f b := by
  intro f
  induction f with
  | zero => intro b hf; exact absurd hf (Nat.not_lt_zero _)
  | succ f ih =>
    intro b hf
    rw [groupLoopF_succ]
    by_cases heq : candState (groupSweep b) = candState b
    · rw [if_pos heq]
      have hb : groupSweep b = b :=
        board_eq_of_candState_flag _ b heq (groupSweep_flag b)
      rw [hb]
      exact hb
    · rw [if_neg heq]
      have hlt : totalCount (groupSweep b) < totalCount b :=
        totalCount_lt_of_ne _ b (groupSweep_candsLE b) heq
      exact ih _ (by omega)

/-- A successful basic_checks result is a simultaneous fixpoint of both
sweeps: one more elimination sweep returns it unchanged (all filled cells
checked) and one more group sweep changes nothing. -/
lemma basicChecksF_fix : ∀ (f : Nat) (b g' : Board), totalCount b < f →
    basicChecksF f b = .ok g' →
    simpleCheckSweep g' = .ok g' ∧ groupSweep g' = g' := by
  intro f
  induction f with
  | zero => intro b g' hf h; exact absurd hf (Nat.not_lt_zero _)
  | succ f ih =>
    intro b g' hf h
    cases hs : simpleLoop b with
    | error e =>
      rw [basicChecksF_succ_err f b e hs] at h
      exact Except.noConfusion h
    | ok b1 =>
      rw [basicChecksF_succ_ok f b b1 hs] at h
      by_cases heq : candState (groupLoop b1) = candState b
      · rw [if_pos heq] at h
        obtain rfl : groupLoop b1 = g' := Except.ok.inj h
        have hc1 : CandsLE b1 b := simpleLoop_candsLE b b1 hs
        have hc2 : CandsLE (groupLoop b1) b1 := groupLoop_candsLE b1
        obtain ⟨hlen, hcands⟩ := (candState_eq_iff _ b).mp heq
        have hcand21 : candState (groupLoop b1) = candState b1 := by
          apply (candState_eq_iff _ _).mpr
          refine ⟨hc2.1, fun i => ?_⟩
          have h1 := hc2.2 i
          have h2 := hc1.2 i
          have h3 := hcands i
          have hb1 : (cellAt b1 i).cands = (cellAt b i).cands :=
            List.Sublist.antisymm h2 (h3 ▸ h1)
          rw [h3, hb1]
        have hsw1 : simpleCheckSweep b1 = .ok b1 :=
          simpleLoopF_fix (totalCount b + 1) b b1 (Nat.lt_succ_self _) hs
        have hg2b1 : groupLoop b1 = b1 :=
          board_eq_of_candState_flag _ b1 hcand21 (fun i => groupLoopF_flag _ b1 i)
        constructor
        · rw [hg2b1]
          exact hsw1
        · exact groupLoopF_fix (totalCount b1 + 1) b1 (Nat.lt_succ_self _)
      · rw [if_neg heq] at h
        have hc : CandsLE (groupLoop b1) b :=
          (groupLoop_candsLE b1).trans (simpleLoop_candsLE b b1 hs)
        have hlt := totalCount_lt_of_ne _ b hc heq
        exact ih _ g' (by omega) h

/-
What a group sweep does to an individual cell: nothing, or an assignment
x[0].cell = [n] with n already among the cell's candidates.
-/

lemma groupAssignStep_char (b0 b : Board) (G : List Nat) (n : Nat)
    (h : ∀ i, cellAt b i = cellAt b0 i ∨
      ∃ m, cellAt b i = ⟨[m], (cellAt b0 i).unchecked⟩ ∧ m ∈ (cellAt b0 i).cands) :
    ∀ i, cellAt (groupAssignStep b G n) i = cellAt b0 i ∨
      ∃ m, cellAt (groupAssignStep b G n) i = ⟨[m], (cellAt b0 i).unchecked⟩ ∧
        m ∈ (cellAt b0 i).cands := by
  intro i
  unfold groupAssignStep
  split
  · next j hj =>
    rw [cellAt_modify]
    by_cases hc : i = j ∧ j < b.length
    · rw [if_pos hc]
      obtain ⟨rfl, hlt⟩ := hc
      have hjf : i ∈ G.filter (fun k => decide (n ∈ (cellAt b k).cands)) := by
        rw [hj]
        exact List.mem_singleton_self i
      have hmem : n ∈ (cellAt b i).cands := of_decide_eq_true (List.mem_filter.mp hjf).2
      rcases h i with hsame | ⟨m, hcell, hm⟩
      · right
        exact ⟨n, by rw [hsame], hsame ▸ hmem⟩
      · right
        rw [hcell] at hmem
        simp only at hmem
        have hnm : n = m := List.mem_singleton.mp hmem
        exact ⟨m, by rw [hcell, hnm], hm⟩
    · rw [if_neg hc]
      exact h i
  · exact h i

lemma digitFold_char (b0 : Board) (G : List Nat) (ns : List Nat) :
    ∀ (b : Board),
    (∀ i, cellAt b i = cellAt b0 i ∨
      ∃ m, cellAt b i = ⟨[m], (cellAt b0 i).unchecked⟩ ∧ m ∈ (cellAt b0 i).cands) →
    ∀ i, cellAt (ns.foldl (fun b n => groupAssignStep b G n) b) i = cellAt b0 i ∨
      ∃ m, cellAt (ns.foldl (fun b n => groupAssignStep b G n) b) i =
          ⟨[m], (cellAt b0 i).unchecked⟩ ∧ m ∈ (cellAt b0 i).cands := by
  induction ns with
  | nil => intro b h i; exact h i
  | cons n rest ih =>
    intro b h i
    rw [List.foldl_cons]
    exact ih _ (groupAssignStep_char b0 b G n h) i

lemma groupSweep_char (b : Board) (i : Nat) :
    cellAt (groupSweep b) i = cellAt b i ∨
      ∃ n, cellAt (groupSweep b) i = ⟨[n], (cellAt b i).unchecked⟩ ∧
        n ∈ (cellAt b i).cands := by
  unfold groupSweep
  generalize allGroups = gs
  have main : ∀ (gs : List (List Nat)) (bb : Board),
      (∀ j, cellAt bb j = cellAt b j ∨
        ∃ m, cellAt bb j = ⟨[m], (cellAt b j).unchecked⟩ ∧ m ∈ (cellAt b j).cands) →
      ∀ j, cellAt (gs.foldl (fun bb G =>
          digitsList.foldl (fun bb n => groupAssignStep bb G n) bb) bb) j = cellAt b j ∨
        ∃ m, cellAt (gs.foldl (fun bb G =>
          digitsList.foldl (fun bb n => groupAssignStep bb G n) bb) bb) j =
            ⟨[m], (cellAt b j).unchecked⟩ ∧ m ∈ (cellAt b j).cands := by
    intro gs
    induction gs with
    | nil => intro bb h j; exact h j
    | cons G rest ih =>
      intro bb h j
      rw [List.foldl_cons]
      exact ih _ (digitFold_char b G digitsList bb h) j
  exact main gs b (fun j => Or.inl rfl) i

/-- Claim C9: the combined fixpoint basic_checks is idempotent -- when a
run completes without error, running it again on the result returns the
result unchanged. -/
theorem c9_basic_checks_idempotent (g g' : Board) (h : basicChecks g = .ok g') :
    basicChecks g' = .ok g' := by
  obtain ⟨hsw, hgs⟩ := basicChecksF_fix (totalCount g + 1) g g' (Nat.lt_succ_self _) h
  have hsl : simpleLoop g' = .ok g' := by
    unfold simpleLoop
    rw [simpleLoopF_succ_ok (totalCount g') g' g' hsw, if_pos rfl]
  have hgl : groupLoop g' = g' := by
    unfold groupLoop
    rw [groupLoopF_succ, hgs, if_pos rfl]
  show basicChecksF (totalCount g' + 1) g' = .ok g'
  rw [basicChecksF_succ_ok (totalCount g') g' g' hsl, hgl, if_pos rfl]

set_option maxRecDepth 1000000 in
/-- Witness for C9 at a concrete grid: basic_checks on the fresh board
already returns it unchanged, so the theorem applies to it. -/
theorem c9_witness : basicChecks newBoard = Except.ok newBoard :=
  c9_basic_checks_idempotent newBoard newBoard (by decide!)

/-- Claim C7: basic_checks terminates on every input grid.  Each pass only
shrinks candidate lists (the CandsLE order), so totalCount is a
non-increasing integer measure, and once the fuel exceeds totalCount the
fueled loop is independent of the fuel: the while-True loop reaches its
stop condition within totalCount iterations. -/
theorem c7_basic_checks_terminates :
    (∀ b b', simpleCheckSweep b = .ok b' → CandsLE b' b) ∧
    (∀ b, CandsLE (groupSweep b) b) ∧
    (∀ (b : Board) (f₁ f₂ : Nat), totalCount b < f₁ → totalCount b < f₂ →
      basicChecksF f₁ b = basicChecksF f₂ b) :=
  ⟨simpleCheckSweep_candsLE, groupSweep_candsLE,
    fun b f₁ f₂ h1 h2 => basicChecksF_stable (totalCount b) b f₁ f₂ (Nat.le_refl _) h1 h2⟩

/-- Witness for C7 at concrete fuel values: with fuel beyond the fresh
board's 729 candidates the fueled basic_checks is fuel-independent. -/
theorem c7_witness : basicChecksF 730 newBoard = basicChecksF 800 newBoard :=
  c7_basic_checks_terminates.2.2 newBoard 730 800 (by decide) (by decide)

/-- Claim C8: total candidate count never increases across a single
elimination pass or a single group (unique-candidate) pass, and a group
assignment only ever replaces a candidate list by a singleton drawn from
it. -/
theorem c8_count_nonincreasing :
    (∀ b b', simpleCheckSweep b = .ok b' → totalCount b' ≤ totalCount b) ∧
    (∀ b, totalCount (groupSweep b) ≤ totalCount b) ∧
    (∀ (b : Board) (i : Nat), cellAt (groupSweep b) i = cellAt b i ∨
      ∃ n, (cellAt (groupSweep b) i).cands = [n] ∧ n ∈ (cellAt b i).cands) := by
  refine ⟨fun b b' h => totalCount_le_of_candsLE b' b (simpleCheckSweep_candsLE b b' h),
    fun b => totalCount_le_of_candsLE _ b (groupSweep_candsLE b), fun b i => ?_⟩
  rcases groupSweep_char b i with hsame | ⟨n, hcell, hm⟩
  · exact Or.inl hsame
  · exact Or.inr ⟨n, by rw [hcell], hm⟩

/-
The disambiguator pass, cell by cell.
-/

lemma mem_almostIdxs (b : Board) (i : Nat) :
    i ∈ almostIdxs b ↔ i < 81 ∧ (cellAt b i).cands.length = 2 := by
  unfold almostIdxs
  rw [List.mem_filter, List.mem_range]
  constructor
  · rintro ⟨h1, h2⟩
    exact ⟨h1, by simpa using h2⟩
  · rintro ⟨h1, h2⟩
    exact ⟨h1, by rw [h2]; rfl⟩

lemma almostIdxs_nodup (b : Board) : (almostIdxs b).Nodup :=
  (List.nodup_range 81).filter _

lemma bruteStep_ok (b : Board) (i : Nat) (s : Board) (h : trial b i = .ok s) :
    bruteStep b i = b := by
  simp only [bruteStep, h]

lemma bruteStep_err (b : Board) (i : Nat) (h : trial b i = .error ()) :
    bruteStep b i = modifyCell b i (fun c => ⟨[c.cands.getD 1 0], c.unchecked⟩) := by
  simp only [bruteStep, h]

lemma bruteStep_length (b : Board) (i : Nat) : (bruteStep b i).length = b.length := by
  unfold bruteStep
  split
  · rfl
  · exact length_modifyCell b i _

lemma cellAt_bruteStep_ne (b : Board) (i j : Nat) (h : j ≠ i) :
    cellAt (bruteStep b i) j = cellAt b j := by
  unfold bruteStep
  split
  · rfl
  · exact cellAt_modify_ne b i j _ h

lemma bruteFold_preserve : ∀ (l : List Nat) (b : Board) (i : Nat), (∀ j ∈ l, j ≠ i) →
    cellAt (l.foldl bruteStep b) i = cellAt b i := by
  intro l
  induction l with
  | nil => intro b i _; rfl
  | cons a rest ih =>
    intro b i h
    rw [List.foldl_cons, ih _ i (fun j hj => h j (List.mem_cons_of_mem a hj)),
      cellAt_bruteStep_ne b a i (fun he => h a (List.mem_cons_self a rest) he.symm)]

/-- If the trial for cell i -- run against the grid as it stands when the
pass reaches i -- raises, the pass assigns the second candidate of the
original cell to cell i of the real grid. -/
lemma bruteFold_char : ∀ (l : List Nat) (b : Board) (i : Nat), l.Nodup → i ∈ l →
    i < b.length →
    trial ((l.takeWhile (fun j => j != i)).foldl bruteStep b) i = .error () →
    (cellAt (l.foldl bruteStep b) i).cands = [(cellAt b i).cands.getD 1 0] := by
  intro l
  induction l with
  | nil => intro b i _ hi; cases hi
  | cons a rest ih =>
    intro b i hnd hi hlen htr
    rcases Decidable.em (a = i) with rfl | hne
    · rw [List.takeWhile_cons] at htr
      rw [bne_self_eq_false] at htr
      simp only [Bool.false_eq_true, if_false, List.foldl_nil] at htr
      rw [List.foldl_cons, bruteStep_err b a htr,
        bruteFold_preserve rest _ a
          (fun j hj he => (List.nodup_cons.mp hnd).1 (he ▸ hj)),
        cellAt_modify, if_pos ⟨rfl, hlen⟩]
    · rw [List.takeWhile_cons] at htr
      have hba : (a != i) = true := bne_iff_ne.mpr hne
      rw [hba] at htr
      simp only [if_true, List.foldl_cons] at htr
      have hi' : i ∈ rest := by
        rcases List.mem_cons.mp hi with rfl | h
        · exact absurd rfl hne
        · exact h
      rw [List.foldl_cons,
        ih (bruteStep b a) i (List.nodup_cons.mp hnd).2 hi'
          (by rw [bruteStep_length]; exact hlen) htr,
        cellAt_bruteStep_ne b a i (fun he => hne he.symm)]

/-- When every trial of the pass is inconclusive, the pass returns the
grid unchanged. -/
lemma bruteFold_id : ∀ (l : List Nat) (b : Board),
    (∀ i ∈ l, (trial b i).isOk) → l.foldl bruteStep b = b := by
  intro l
  induction l with
  | nil => intro b _; rfl
  | cons a rest ih =>
    intro b h
    have ha := h a (List.mem_cons_self a rest)
    cases ht : trial b a with
    | error e => rw [ht] at ha; exact Bool.noConfusion ha
    | ok s =>
      rw [List.foldl_cons, bruteStep_ok b a s ht]
      exact ih b (fun i hi => h i (List.mem_cons_of_mem a hi))

/-- Every cell of the pass result is either the untouched original cell or
an explicit second-candidate fix at a two-candidate cell. -/
lemma bruteFold_frame : ∀ (l : List Nat) (b : Board) (j : Nat), l.Nodup →
    cellAt (l.foldl bruteStep b) j = cellAt b j ∨
      (j ∈ l ∧ (cellAt (l.foldl bruteStep b) j).cands = [(cellAt b j).cands.getD 1 0]) := by
  intro l
  induction l with
  | nil => intro b j _; exact Or.inl rfl
  | cons a rest ih =>
    intro b j hnd
    rw [List.foldl_cons]
    rcases ih (bruteStep b a) j (List.nodup_cons.mp hnd).2 with h' | ⟨hj, hc⟩
    · cases ht : trial b a with
      | ok s =>
        rw [bruteStep_ok b a s ht] at h' ⊢
        exact Or.inl h'
      | error e =>
        obtain rfl : e = () := rfl
        rw [bruteStep_err b a ht] at h' ⊢
        rw [cellAt_modify] at h'
        by_cases hca : j = a ∧ a < b.length
        · rw [if_pos hca] at h'
          refine Or.inr ⟨by rw [hca.1]; exact List.mem_cons_self a rest, ?_⟩
          rw [h', hca.1]
        · rw [if_neg hca] at h'
          exact Or.inl h'
    · have hja : j ≠ a := fun he => (List.nodup_cons.mp hnd).1 (he ▸ hj)
      refine Or.inr ⟨List.mem_cons_of_mem a hj, ?_⟩
      rw [hc, cellAt_bruteStep_ne b a j hja]

/-- Claim C2: whenever the trial for a two-candidate cell (run on the grid
state the pass has reached) raises the contradiction IndexError, the pass
assigns the cell's other, second candidate to that cell of the real grid:
the returned grid carries the singleton second candidate there. -/
theorem c2_contradiction_fixes_other (orig : Board) (i : Nat)
    (hmem : i ∈ almostIdxs orig)
    (htr : trial (bruteBefore orig i) i = .error ()) :
    (cellAt (simpleBruteCheck orig) i).cands = [(cellAt orig i).cands.getD 1 0] := by
  have hlen : i < orig.length := by
    refine cellAt_lt_of_ne_default orig i (fun hd => ?_)
    have := ((mem_almostIdxs orig i).mp hmem).2
    rw [hd] at this
    exact absurd this (by decide)
  exact bruteFold_char (almostIdxs orig) orig i (almostIdxs_nodup orig)
    hmem hlen htr

set_option maxRecDepth 1000000 in
/-- Witness for C2: on the board orig2 the serialized scratch copy holds
two 9s in row 1, the trial raises, and the pass fixes cell 1 (candidates
1 and 2) to its second candidate 2 on the real grid. -/
theorem c2_witness : (cellAt (simpleBruteCheck orig2) 0).cands = [2] :=
  (c2_contradiction_fixes_other orig2 0 (by decide!) (by decide!)).trans (by decide!)

/-- Claim C3, amended: the disambiguator never leaks scratch state into the
real grid -- every cell of the pass result is the original cell unchanged,
or a cell of the pass's snapshot explicitly fixed to its second candidate;
mutating a scratch copy never changes the original. -/
theorem c3_no_shared_state (orig : Board) (j : Nat) :
    cellAt (simpleBruteCheck orig) j = cellAt orig j ∨
      (j ∈ almostIdxs orig ∧
        (cellAt (simpleBruteCheck orig) j).cands = [(cellAt orig j).cands.getD 1 0]) :=
  bruteFold_frame (almostIdxs orig) orig j (almostIdxs_nodup orig)

set_option maxRecDepth 1000000 in
/-- Counterexample for C3 as stated: the scratch grid of the trial for
cell 1 of orig3 is rebuilt from the serialized digit string, so at the
moment the trial candidate is assigned its cell 1 holds all nine
candidates, not the two candidates of the real grid's cell 1. -/
theorem c3_counterexample : 1 ∈ almostIdxs orig3 ∧
    trialScratch orig3 = Except.ok newBoard ∧
    (cellAt newBoard 1).cands ≠ (cellAt orig3 1).cands := by
  refine ⟨by decide!, by decide!, by decide!⟩

/-- Claim C6: a trial whose combined fixpoint completes without
contradiction makes no change to the real grid at its turn, and a pass all
of whose trials complete without contradiction returns the real grid
exactly as it was. -/
theorem c6_inconclusive_trials_no_change :
    (∀ (b : Board) (i : Nat) (s : Board), trial b i = .ok s → bruteStep b i = b) ∧
    (∀ orig : Board, (∀ i ∈ almostIdxs orig, (trial orig i).isOk) →
      simpleBruteCheck orig = orig) :=
  ⟨bruteStep_ok, fun orig h => bruteFold_id (almostIdxs orig) orig h⟩

set_option maxRecDepth 1000000 in
/-- Witness for C6: the single trial of orig6 is inconclusive and the pass
leaves the board unchanged. -/
theorem c6_witness : simpleBruteCheck orig6 = orig6 :=
  c6_inconclusive_trials_no_change.2 orig6 (by decide!)

set_option maxRecDepth 1000000 in
/-- Witness for C8: one elimination sweep on the board b5 produces b5p and
does not increase the total candidate count. -/
theorem c8_witness : totalCount b5p ≤ totalCount b5 :=
  c8_count_nonincreasing.1 b5 b5p (by decide!)

/-
Claims C1 and C10.
-/

lemma cellAt_eq_getElem (b : Board) (i : Nat) (h : i < b.length) :
    cellAt b i = b[i] := by
  unfold cellAt
  rw [List.getD_eq_getElem?_getD, List.getElem?_eq_getElem h]
  rfl

/-- Claim C1, amended: Cell.remove deletes the value from the candidate
list whenever it is present -- including when it is the last remaining
candidate, which leaves the list empty with no error raised -- and the
elimination sweep on a grid whose row 1 holds two cells restricted to
exactly the candidate 5 does raise the contradiction error, at the moment
the second cell (emptied by the first) is processed as a filled source. -/
theorem c1_remove_contract :
    (∀ (c : Cell) (v : Nat), v ∈ c.cands →
      Cell.remove c v = .ok ⟨c.cands.erase v, c.unchecked⟩) ∧
    simpleCheckSweep scenB = .error () := by
  constructor
  · intro c v hv
    unfold Cell.remove
    rw [if_pos hv]
  · decide

/-- Counterexample for C1 as stated: removing the last remaining candidate
does not fail -- it succeeds and leaves the candidate set empty. -/
theorem c1_counterexample :
    Cell.remove ⟨[5], true⟩ 5 = Except.ok ⟨[], true⟩ := by decide

/-- Witness for C1: removing a present value deletes it. -/
theorem c1_witness : Cell.remove ⟨[1, 2], true⟩ 1 = Except.ok ⟨[2], true⟩ :=
  c1_remove_contract.1 ⟨[1, 2], true⟩ 1 (by decide)

/-- Claim C10: a cell with an empty candidate set is silently tolerated.
It is not filled, the grid containing it is never solved, the elimination
pass never takes it as a source (it is outside the filled snapshot), the
group pass never assigns to it, and a grid whose only anomaly is the empty
cell passes the elimination sweep without error and unchanged. -/
theorem c10_empty_cell_tolerated (g : Board) (i : Nat)
    (hc : (cellAt g i).cands = []) (hlen : i < g.length) :
    filled (cellAt g i) = false ∧ solvedB g = false ∧ i ∉ filledIdxs g ∧
    cellAt (groupSweep g) i = cellAt g i ∧
    simpleCheckSweep (newBoard.set i ⟨[], true⟩) =
      .ok (newBoard.set i ⟨[], true⟩) := by
  have hfill : filled (cellAt g i) = false := by
    unfold filled
    rw [hc]
    rfl
  refine ⟨hfill, ?_, ?_, ?_, ?_⟩
  · unfold solvedB
    rw [beq_eq_false_iff_ne]
    intro hfeq
    have hmem : cellAt g i ∈ g := by
      rw [cellAt_eq_getElem g i hlen]
      exact List.getElem_mem hlen
    have := List.filter_eq_self.mp hfeq (cellAt g i) hmem
    rw [hfill] at this
    exact Bool.noConfusion this
  · intro hmem
    have := ((mem_filledIdxs g i).mp hmem).2
    rw [hfill] at this
    exact Bool.noConfusion this
  · rcases groupSweep_char g i with hsame | ⟨n, _, hmem⟩
    · exact hsame
    · rw [hc] at hmem
      cases hmem
  · have hfI : filledIdxs (newBoard.set i ⟨[], true⟩) = [] := by
      unfold filledIdxs
      rw [List.filter_eq_nil_iff]
      intro j hj
      have hj81 : j < 81 := List.mem_range.mp hj
      by_cases hji : j = i
      · subst hji
        by_cases hjl : j < 81
        · rw [cellAt_set_self newBoard j _ (by simpa [newBoard] using hjl)]
          decide
        · exact absurd hj81 hjl
      · rw [cellAt_set_ne newBoard i j _ hji]
        have : cellAt newBoard j = freshCell := by
          unfold cellAt newBoard
          rw [List.getD_eq_getElem?_getD, List.getElem?_replicate, if_pos hj81]
          rfl
        rw [this]
        decide
    unfold simpleCheckSweep
    rw [hfI]
    rfl

set_option maxRecDepth 1000000 in
/-- Witness for C10 at the concrete board g10 whose first cell is empty. -/
theorem c10_witness :
    filled (cellAt g10 0) = false ∧ solvedB g10 = false ∧ 0 ∉ filledIdxs g10 ∧
    cellAt (groupSweep g10) 0 = cellAt g10 0 ∧
    simpleCheckSweep (newBoard.set 0 ⟨[], true⟩) =
      .ok (newBoard.set 0 ⟨[], true⟩) :=
  c10_empty_cell_tolerated g10 0 (by decide!) (by decide!)

/-
Claim C4: the solve loop's stop condition.
-/

lemma getD_one_mem (l : List Nat) (h : l.length = 2) : l.getD 1 0 ∈ l := by
  match l, h with
  | [x, y], _ => exact List.mem_cons_of_mem x (List.mem_singleton_self y)

lemma bruteFold_candsLE : ∀ (l : List Nat) (b0 b : Board), l.Nodup → CandsLE b b0 →
    (∀ j ∈ l, cellAt b j = cellAt b0 j ∧ (cellAt b0 j).cands.length = 2) →
    CandsLE (l.foldl bruteStep b) b0 := by
  intro l
  induction l with
  | nil => intro b0 b _ hle _; exact hle
  | cons a rest ih =>
    intro b0 b hnd hle h
    rw [List.foldl_cons]
    cases ht : trial b a with
    | ok s =>
      rw [bruteStep_ok b a s ht]
      exact ih b0 b (List.nodup_cons.mp hnd).2 hle
        (fun j hj => h j (List.mem_cons_of_mem a hj))
    | error e =>
      obtain rfl : e = () := rfl
      rw [bruteStep_err b a ht]
      obtain ⟨hsame, hlen2⟩ := h a (List.mem_cons_self a rest)
      have halen : a < b.length := by
        refine cellAt_lt_of_ne_default b a (fun hd => ?_)
        rw [hd] at hsame
        rw [← hsame] at hlen2
        exact absurd hlen2 (by decide)
      have hstep : CandsLE (modifyCell b a (fun c => ⟨[c.cands.getD 1 0], c.unchecked⟩)) b0 := by
        refine ⟨(length_modifyCell b a _).trans hle.1, fun j => ?_⟩
        rw [cellAt_modify]
        by_cases hc : j = a ∧ a < b.length
        · rw [if_pos hc]
          obtain ⟨rfl, _⟩ := hc
          refine List.singleton_sublist.mpr ?_
          rw [hsame]
          exact getD_one_mem _ hlen2
        · rw [if_neg hc]
          exact hle.2 j
      refine ih b0 _ (List.nodup_cons.mp hnd).2 hstep (fun j hj => ?_)
      have hja : j ≠ a := fun he => (List.nodup_cons.mp hnd).1 (he ▸ hj)
      rw [cellAt_modify_ne b a j _ hja]
      exact h j (List.mem_cons_of_mem a hj)

lemma simpleBruteCheck_candsLE (b : Board) : CandsLE (simpleBruteCheck b) b := by
  refine bruteFold_candsLE (almostIdxs b) b b (almostIdxs_nodup b) (CandsLE.refl b)
    (fun j hj => ⟨rfl, ((mem_almostIdxs b j).mp hj).2⟩)

lemma solveCycle_ok_cases (g g' : Board) (s : Bool) (h : solveCycle g = .ok (g', s)) :
    ∃ b1, basicChecks g = .ok b1 ∧
      ((s = true ∧ g' = b1 ∧ solvedB b1 = true) ∨
        (s = false ∧ g' = simpleBruteCheck b1 ∧ solvedB b1 = false)) := by
  unfold solveCycle at h
  cases hb : basicChecks g with
  | error e => rw [hb] at h; exact Except.noConfusion h
  | ok b1 =>
    rw [hb] at h
    simp only at h
    by_cases hs : solvedB b1 = true
    · rw [if_pos hs] at h
      have := Except.ok.inj h
      refine ⟨b1, rfl, Or.inl ⟨?_, ?_, hs⟩⟩
      · exact (Prod.mk.injEq _ _ _ _ ▸ this).2.symm
      · exact (Prod.mk.injEq _ _ _ _ ▸ this).1.symm
    · rw [if_neg hs] at h
      have := Except.ok.inj h
      refine ⟨b1, rfl, Or.inr ⟨?_, ?_, Bool.not_eq_true _ ▸ hs⟩⟩
      · exact (Prod.mk.injEq _ _ _ _ ▸ this).2.symm
      · exact (Prod.mk.injEq _ _ _ _ ▸ this).1.symm

lemma solveCycle_candsLE (g g' : Board) (s : Bool) (h : solveCycle g = .ok (g', s)) :
    CandsLE g' g := by
  obtain ⟨b1, hb, hcase⟩ := solveCycle_ok_cases g g' s h
  rcases hcase with ⟨_, hg, _⟩ | ⟨_, hg, _⟩
  · rw [hg]
    exact basicChecks_candsLE g b1 hb
  · rw [hg]
    exact (simpleBruteCheck_candsLE b1).trans (basicChecks_candsLE g b1 hb)

/-- With any positive fuel, a successful solveF run reports at least one
cycle. -/
lemma solveF_pos (f : Nat) (b bf : Board) (s : Bool) (k : Nat)
    (h : solveF (f + 1) b = .ok (bf, s, k)) : 1 ≤ k := by
  cases hc : solveCycle b with
  | error e =>
    rw [solveF_succ_err f b e hc] at h
    exact Except.noConfusion h
  | ok p =>
    obtain ⟨b1, s1⟩ := p
    cases s1 with
    | true =>
      rw [solveF_succ_solved f b b1 hc] at h
      have := Except.ok.inj h
      simp only [Prod.mk.injEq] at this
      omega
    | false =>
      rw [solveF_succ_unsolved f b b1 hc] at h
      by_cases heq : candState b1 = candState b
      · rw [if_pos heq] at h
        have := Except.ok.inj h
        simp only [Prod.mk.injEq] at this
        omega
      · rw [if_neg heq] at h
        cases hr : solveF f b1 with
        | error e => rw [hr] at h; exact Except.noConfusion h
        | ok t =>
          obtain ⟨bf', s', k'⟩ := t
          rw [hr] at h
          simp only at h
          have := Except.ok.inj h
          simp only [Prod.mk.injEq] at this
          omega

/-- Claim C4, amended: after the combined fixpoint, solve stops with
success if the grid is solved; otherwise it stops reporting stuck after
this first cycle exactly when the cycle left the full candidate state --
the str(board.cells) comparison includes every candidate list, not merely
the 81-digit serialization -- unchanged. -/
theorem c4_solve_stop_condition :
    (∀ (g g1 : Board), solveCycle g = .ok (g1, true) → solve g = .ok (g1, true, 1)) ∧
    (∀ (g g2 : Board), solveCycle g = .ok (g2, false) →
      (solve g = .ok (g2, false, 1) ↔ candState g2 = candState g)) := by
  constructor
  · intro g g1 h
    show solveF (totalCount g + 1) g = _
    rw [solveF_succ_solved (totalCount g) g g1 h]
  · intro g g2 h
    show solveF (totalCount g + 1) g = _ ↔ _
    rw [solveF_succ_unsolved (totalCount g) g g2 h]
    by_cases heq : candState g2 = candState g
    · rw [if_pos heq]
      simp [heq]
    · rw [if_neg heq]
      constructor
      · intro hx
        exfalso
        have hlt : totalCount g2 < totalCount g :=
          totalCount_lt_of_ne g2 g (solveCycle_candsLE g g2 false h) heq
        obtain ⟨m, hm⟩ : ∃ m, totalCount g = m + 1 := ⟨totalCount g - 1, by omega⟩
        rw [hm] at hx
        cases hr : solveF (m + 1) g2 with
        | error e => rw [hr] at hx; exact Except.noConfusion hx
        | ok t =>
          obtain ⟨bf', s', k'⟩ := t
          rw [hr] at hx
          simp only at hx
          have h1 := solveF_pos m g2 bf' s' k' hr
          have := Except.ok.inj hx
          simp only [Prod.mk.injEq] at this
          omega
      · intro hx
        exact absurd hx heq

set_option maxRecDepth 1000000 in
/-- Witness for C4: on the stable board b5p one cycle changes nothing, so
solve stops stuck after exactly one cycle. -/
theorem c4_witness : solve b5p = Except.ok (b5p, false, 1) :=
  (c4_solve_stop_condition.2 b5p b5p (by decide!)).mpr (by decide!)

set_option maxRecDepth 1000000 in
/-- Counterexample for C4 as stated: on the board b5 the first full cycle
leaves the 81-digit serialization unchanged -- so the claimed stop
condition says the driver stops after one cycle -- yet solve runs a second
cycle before reporting stuck. -/
theorem c4_counterexample :
    (solveCycle b5).map (fun p => setupString p.1) = Except.ok (setupString b5) ∧
    solve b5 = Except.ok (b5p, false, 2) := by
  exact ⟨by decide!, by decide!⟩

/-
Claim C5: serialization round-trip.
-/

lemma roundtrip_candState_aux : ∀ (b : Board),
    (∀ c ∈ b, ∀ v ∈ c.cands, v ∈ digitsList) →
    (candState (setupOn (List.replicate b.length freshCell) (setupString b)) =
        candState b ↔
      ∀ c ∈ b, c.cands.length = 1 ∨ c.cands = digitsList) := by
  intro b
  induction b with
  | nil =>
    intro _
    constructor
    · intro _ c hc
      cases hc
    · intro _
      rfl
  | cons c t ih =>
    intro hv
    have hvc : ∀ v ∈ c.cands, v ∈ digitsList := hv c (List.mem_cons_self c t)
    have hvt : ∀ c' ∈ t, ∀ v ∈ c'.cands, v ∈ digitsList :=
      fun c' hc' => hv c' (List.mem_cons_of_mem c hc')
    rcases hc : c.cands with _ | ⟨x, _ | ⟨y, ys⟩⟩
    · have hstep : setupOn (List.replicate (c :: t).length freshCell)
          (setupString (c :: t)) =
          freshCell :: setupOn (List.replicate t.length freshCell) (setupString t) := by
        rw [List.length_cons, List.replicate_succ]
        show setupOn (freshCell :: _)
          ((match c.cands with | [v] => v | _ => 0) :: setupString t) = _
        rw [hc]
        rfl
      rw [hstep, candState_cons, candState_cons, hc, List.cons.injEq,
        List.forall_mem_cons]
      constructor
      · rintro ⟨h1, _⟩
        exact absurd h1 (by decide)
      · rintro ⟨h1, _⟩
        rw [hc] at h1
        rcases h1 with h1 | h1
        · exact absurd h1 (by decide)
        · exact absurd h1 (by decide)
    · have hx9 : x ∈ digitsList := hvc x (by rw [hc]; exact List.mem_singleton_self x)
      have hx0 : x ≠ 0 := fun h0 => absurd (h0 ▸ hx9) (by decide)
      have hstep : setupOn (List.replicate (c :: t).length freshCell)
          (setupString (c :: t)) =
          (⟨[x], true⟩ : Cell) ::
            setupOn (List.replicate t.length freshCell) (setupString t) := by
        rw [List.length_cons, List.replicate_succ]
        show setupOn (freshCell :: _)
          ((match c.cands with | [v] => v | _ => 0) :: setupString t) = _
        rw [hc]
        show (if x ≠ 0 then (⟨[x], freshCell.unchecked⟩ : Cell) else freshCell) :: _ = _
        rw [if_pos hx0]
        rfl
      rw [hstep, candState_cons, candState_cons, hc, List.cons.injEq,
        List.forall_mem_cons]
      constructor
      · rintro ⟨_, h2⟩
        exact ⟨Or.inl (by rw [hc]; rfl), (ih hvt).mp h2⟩
      · rintro ⟨_, h2⟩
        exact ⟨rfl, (ih hvt).mpr h2⟩
    · have hstep : setupOn (List.replicate (c :: t).length freshCell)
          (setupString (c :: t)) =
          freshCell :: setupOn (List.replicate t.length freshCell) (setupString t) := by
        rw [List.length_cons, List.replicate_succ]
        show setupOn (freshCell :: _)
          ((match c.cands with | [v] => v | _ => 0) :: setupString t) = _
        rw [hc]
        rfl
      rw [hstep, candState_cons, candState_cons, hc, List.cons.injEq,
        List.forall_mem_cons]
      constructor
      · rintro ⟨h1, h2⟩
        exact ⟨Or.inr (by rw [hc, ← h1]; rfl), (ih hvt).mp h2⟩
      · rintro ⟨h1, h2⟩
        rcases h1 with h1 | h1
        · rw [hc] at h1
          simp at h1
        · rw [hc] at h1
          exact ⟨h1.symm, (ih hvt).mpr h2⟩

lemma roundtrip_string_aux : ∀ (b : Board),
    (∀ c ∈ b, ∀ v ∈ c.cands, v ∈ digitsList) →
    setupString (setupOn (List.replicate b.length freshCell) (setupString b)) =
      setupString b := by
  intro b
  induction b with
  | nil => intro _; rfl
  | cons c t ih =>
    intro hv
    have hvc : ∀ v ∈ c.cands, v ∈ digitsList := hv c (List.mem_cons_self c t)
    have hvt : ∀ c' ∈ t, ∀ v ∈ c'.cands, v ∈ digitsList :=
      fun c' hc' => hv c' (List.mem_cons_of_mem c hc')
    rcases hc : c.cands with _ | ⟨x, _ | ⟨y, ys⟩⟩
    · have hstep : setupOn (List.replicate (c :: t).length freshCell)
          (setupString (c :: t)) =
          freshCell :: setupOn (List.replicate t.length freshCell) (setupString t) := by
        rw [List.length_cons, List.replicate_succ]
        show setupOn (freshCell :: _)
          ((match c.cands with | [v] => v | _ => 0) :: setupString t) = _
        rw [hc]
        rfl
      rw [hstep]
      show (0 : Nat) :: setupString (setupOn _ _) = _
      rw [ih hvt]
      show (0 : Nat) :: setupString t =
        (match c.cands with | [v] => v | _ => 0) :: setupString t
      rw [hc]
    · have hx9 : x ∈ digitsList := hvc x (by rw [hc]; exact List.mem_singleton_self x)
      have hx0 : x ≠ 0 := fun h0 => absurd (h0 ▸ hx9) (by decide)
      have hstep : setupOn (List.replicate (c :: t).length freshCell)
          (setupString (c :: t)) =
          (⟨[x], true⟩ : Cell) ::
            setupOn (List.replicate t.length freshCell) (setupString t) := by
        rw [List.length_cons, List.replicate_succ]
        show setupOn (freshCell :: _)
          ((match c.cands with | [v] => v | _ => 0) :: setupString t) = _
        rw [hc]
        show (if x ≠ 0 then (⟨[x], freshCell.unchecked⟩ : Cell) else freshCell) :: _ = _
        rw [if_pos hx0]
        rfl
      rw [hstep]
      show x :: setupString (setupOn _ _) = _
      rw [ih hvt]
      show x :: setupString t =
        (match c.cands with | [v] => v | _ => 0) :: setupString t
      rw [hc]
    · have hstep : setupOn (List.replicate (c :: t).length freshCell)
          (setupString (c :: t)) =
          freshCell :: setupOn (List.replicate t.length freshCell) (setupString t) := by
        rw [List.length_cons, List.replicate_succ]
        show setupOn (freshCell :: _)
          ((match c.cands with | [v] => v | _ => 0) :: setupString t) = _
        rw [hc]
        rfl
      rw [hstep]
      show (0 : Nat) :: setupString (setupOn _ _) = _
      rw [ih hvt]
      show (0 : Nat) :: setupString t =
        (match c.cands with | [v] => v | _ => 0) :: setupString t
      rw [hc]

/-- Claim C5, amended: for an 81-cell grid over digits 1..9, serializing
with setup_string and rebuilding with setup preserves exactly the solved
cells -- the candidate state round-trips to the identity precisely when
every cell is solved or still holds the full candidate list -- and the
serialization itself always round-trips: setup_string of the rebuilt grid
equals the original setup_string. -/
theorem c5_roundtrip (b : Board) (hlen : b.length = 81)
    (hv : ∀ c ∈ b, ∀ v ∈ c.cands, v ∈ digitsList) :
    ((candState (setupOn newBoard (setupString b)) = candState b) ↔
      ∀ c ∈ b, c.cands.length = 1 ∨ c.cands = digitsList) ∧
    setupString (setupOn newBoard (setupString b)) = setupString b := by
  have hnb : newBoard = List.replicate b.length freshCell := by rw [hlen]; rfl
  rw [hnb]
  exact ⟨roundtrip_candState_aux b hv, roundtrip_string_aux b hv⟩

set_option maxRecDepth 1000000 in
/-- Counterexample for C5 as stated: a grid whose cell 1 is restricted to
candidates 1 and 2 serializes to all blanks, and rebuilding yields the
fresh grid, whose state differs from the original. -/
theorem c5_counterexample :
    candState (setupOn newBoard (setupString orig3)) ≠ candState orig3 := by decide!

set_option maxRecDepth 1000000 in
/-- Witness for C5: the fresh board round-trips to itself. -/
theorem c5_witness :
    candState (setupOn newBoard (setupString newBoard)) = candState newBoard :=
  (c5_roundtrip newBoard (by decide!) (by decide!)).1.mpr (by decide!)
